import Mathlib

/-!
Verification of the motus password generator.

This file gives a shallow embedding of the two source files of the
repository (crates/motus/src/lib.rs and crates/motus-cli/src/main.rs)
and proves the specified properties about them.

Modelling conventions:
* A random source (the rand crate boundary) is modelled as an infinite
  sequence of raw draws together with a position.  Each call of the
  uniform-range capability (gen_range, Uniform::sample, and the single
  uniform draw inside WeightedIndex::sample) consumes one position and
  yields a value reduced into the requested range.
* Machine integers (u32, usize, u8) are modelled as Nat; no operation
  in the source comes near an overflow boundary.
* A Rust panic (expect, out-of-bounds indexing, empty uniform range) is
  modelled by Option.none; a normal return is Option.some.
* Strings are modelled as the lists of characters pushed, in push order.
-/

/-- State of an injected random source: an infinite stream of raw draws
and the position of the next draw. -/
structure Rng where
  seq : Nat → Nat
  pos : Nat

/-- Model of sampling a uniform integer in the half-open range 0..n
(rand gen_range / Uniform::from(0..n).sample): consumes one raw draw
and reduces it into the range; panics (none) when the range is empty. -/
def genRange (rng : Rng) (n : Nat) : Option (Nat × Rng) :=
  if n = 0 then none
  else some (rng.seq rng.pos % n, ⟨rng.seq, rng.pos + 1⟩)

/-- NUMBER_CHARS from crates/motus/src/lib.rs line 16. -/
def NUMBER_CHARS : List Char :=
  ['0', '1', '2', '3', '4', '5', '6', '7', '8', '9']

/-- LETTER_CHARS from crates/motus/src/lib.rs lines 19 to 23. -/
def LETTER_CHARS : List Char :=
  ['a', 'b', 'c', 'd', 'e', 'f', 'g', 'h', 'i', 'j', 'k', 'l', 'm',
   'n', 'o', 'p', 'q', 'r', 's', 't', 'u', 'v', 'w', 'x', 'y', 'z',
   'A', 'B', 'C', 'D', 'E', 'F', 'G', 'H', 'I', 'J', 'K', 'L', 'M',
   'N', 'O', 'P', 'Q', 'R', 'S', 'T', 'U', 'V', 'W', 'X', 'Y', 'Z']

/-- SYMBOL_CHARS from crates/motus/src/lib.rs line 26. -/
def SYMBOL_CHARS : List Char :=
  ['!', '@', '#', '$', '%', '^', '&', '*', '(', ')']

/-- pin_password from crates/motus/src/lib.rs lines 9 to 13:
(0..numbers).map(|_| NUMBER_CHARS[rng.gen_range(0..NUMBER_CHARS.len())]).collect().
The indexing NUMBER_CHARS[..] is modelled by List.get?. -/
def pin_password (rng : Rng) (numbers : Nat) : Option (List Char × Rng) :=
  match numbers with
  | 0 => some ([], rng)
  | n + 1 =>
    match genRange rng NUMBER_CHARS.length with
    | none => none
    | some (i, rng1) =>
      match NUMBER_CHARS.get? i with
      | none => none
      | some c =>
        match pin_password rng1 n with
        | none => none
        | some (cs, rng2) => some (c :: cs, rng2)

/-- State of rand WeightedIndex (rand 0.8): the running cumulative
totals before each weight after the first, and the total weight. -/
structure WeightedIndex where
  cumulative_weights : List Nat
  total_weight : Nat
  deriving DecidableEq

/-- Cumulative totals as computed by the loop in WeightedIndex::new:
for weights w0 :: rest it pushes the running total before adding each
weight of rest, giving [w0, w0+w1, ...] without the final total. -/
def cumulativeWeights : List Nat → List Nat
  | [] => []
  | [_] => []
  | w :: w2 :: rest => w :: (cumulativeWeights (w2 :: rest)).map (fun c => c + w)

/-- WeightedIndex::new from rand 0.8: error (none) on an empty weight
list (NoItem) or an all-zero weight list (AllWeightsZero); otherwise
the cumulative totals and the total weight. -/
def WeightedIndex.new (weights : List Nat) : Option WeightedIndex :=
  match weights with
  | [] => none
  | w :: rest =>
    if w + rest.sum = 0 then none
    else some ⟨cumulativeWeights (w :: rest), w + rest.sum⟩

/-- Index of the first list entry for which the predicate fails, with
every earlier entry satisfying it (slice partition_point on a
partitioned list, as used by WeightedIndex::sample). -/
def partitionPoint (p : Nat → Bool) : List Nat → Nat
  | [] => 0
  | w :: rest => if p w then partitionPoint p rest + 1 else 0

/-- WeightedIndex::sample from rand 0.8: draw a uniform value below the
total weight, then return the index of the first cumulative total
strictly above it. -/
def WeightedIndex.sample (d : WeightedIndex) (rng : Rng) : Option (Nat × Rng) :=
  match genRange rng d.total_weight with
  | none => none
  | some (x, rng1) =>
    some (partitionPoint (fun w => decide (w ≤ x)) d.cumulative_weights, rng1)

/-- The available_sets vector built by pushes in random_password,
crates/motus/src/lib.rs lines 60 to 68. -/
def available_sets (numbers symbols : Bool) : List (List Char) :=
  let sets0 := [LETTER_CHARS]
  let sets1 := if numbers then sets0 ++ [NUMBER_CHARS] else sets0
  let sets2 := if symbols then sets1 ++ [SYMBOL_CHARS] else sets1
  sets2

/-- The weights vector of random_password, crates/motus/src/lib.rs
lines 70 to 81. -/
def password_weights (numbers symbols : Bool) : List Nat :=
  match numbers, symbols with
  | true, true => [7, 2, 1]
  | true, false => [8, 2]
  | false, true => [8, 2]
  | false, false => [10]

/-- One iteration of the character loop of random_password,
crates/motus/src/lib.rs lines 86 to 93: sample a set index from the
weighted distribution, look the set up (expect "index should be
valid"), sample a uniform character index, and index into the set. -/
def passwordChar (sets : List (List Char)) (d : WeightedIndex) (rng : Rng) :
    Option (Char × Rng) :=
  match d.sample rng with
  | none => none
  | some (j, rng1) =>
    match sets.get? j with
    | none => none
    | some selected =>
      match genRange rng1 selected.length with
      | none => none
      | some (i, rng2) =>
        match selected.get? i with
        | none => none
        | some c => some (c, rng2)

/-- The for loop of random_password over the requested character
count, accumulating pushed characters in order. -/
def passwordLoop (sets : List (List Char)) (d : WeightedIndex) :
    Nat → Rng → Option (List Char × Rng)
  | 0, rng => some ([], rng)
  | n + 1, rng =>
    match passwordChar sets d rng with
    | none => none
    | some (c, rng1) =>
      match passwordLoop sets d n rng1 with
      | none => none
      | some (cs, rng2) => some (c :: cs, rng2)

/-- random_password from crates/motus/src/lib.rs lines 54 to 97:
build the available sets and the weight vector, construct the
weighted distribution (expect "weights should be valid"), then run
the character loop. -/
def random_password (rng : Rng) (characters : Nat) (numbers symbols : Bool) :
    Option (List Char × Rng) :=
  match WeightedIndex.new (password_weights numbers symbols) with
  | none => none
  | some dist_set =>
    passwordLoop (available_sets numbers symbols) dist_set characters rng

/-- Active class list as the spec words it: Letters always first, then
Digits if enabled, then Symbols if enabled, preserving that order. -/
def specActiveSets (numbers symbols : Bool) : List (List Char) :=
  [LETTER_CHARS] ++ (if numbers then [NUMBER_CHARS] else [])
    ++ (if symbols then [SYMBOL_CHARS] else [])

/-- Weight vector as the spec table words it, keyed by the flag
combination. -/
def specWeights (numbers symbols : Bool) : List Nat :=
  match numbers, symbols with
  | false, false => [10]
  | true, false => [8, 2]
  | false, true => [8, 2]
  | true, true => [7, 2, 1]

/-- One character drawn as the spec words it: sample a class index from
the weighted distribution, then sample a character index uniformly from
that class, and take that character. -/
def specCharDraw (sets : List (List Char)) (d : WeightedIndex) (rng : Rng) :
    Option (Char × Rng) :=
  (d.sample rng).bind (fun clsIdx =>
    (sets.get? clsIdx.1).bind (fun cls =>
      (genRange clsIdx.2 cls.length).bind (fun charIdx =>
        (cls.get? charIdx.1).map (fun c => (c, charIdx.2)))))

/-- The length-many independent position draws of the spec, appending
characters in draw order. -/
def specPasswordDraw (sets : List (List Char)) (d : WeightedIndex) :
    Nat → Rng → Option (List Char × Rng)
  | 0, rng => some ([], rng)
  | n + 1, rng =>
    (specCharDraw sets d rng).bind (fun cr =>
      (specPasswordDraw sets d n cr.2).map (fun p => (cr.1 :: p.1, p.2)))

/-- The password generator exactly as the spec describes it: active
class list, weight table, weighted distribution, then per-position
class draw followed by a uniform character draw. -/
def specRandomPassword (rng : Rng) (characters : Nat) (numbers symbols : Bool) :
    Option (List Char × Rng) :=
  (WeightedIndex.new (specWeights numbers symbols)).bind (fun d =>
    specPasswordDraw (specActiveSets numbers symbols) d characters rng)

/-- Number of raw draw values below the total weight that select class
index i; a weighted categorical distribution over the class indices
realises weight w for class i exactly when this count is w. -/
def classHitCount (d : WeightedIndex) (i : Nat) : Nat :=
  ((Finset.range d.total_weight).filter
    (fun x => partitionPoint (fun w => decide (w ≤ x)) d.cumulative_weights = i)).card

/-- PasswordStrength from crates/motus-cli/src/main.rs lines 332
to 338. -/
inductive PasswordStrength where
  | VeryWeak
  | Weak
  | Reasonable
  | Strong
  | VeryStrong
  deriving DecidableEq

/-- The From(u8) conversion of crates/motus-cli/src/main.rs lines 340
to 351; the catch-all arm panics (none) with "invalid score". -/
def PasswordStrength.fromScore (score : Nat) : Option PasswordStrength :=
  match score with
  | 0 => some PasswordStrength.VeryWeak
  | 1 => some PasswordStrength.Weak
  | 2 => some PasswordStrength.Reasonable
  | 3 => some PasswordStrength.Strong
  | 4 => some PasswordStrength.VeryStrong
  | _ => none

/-- The Display implementation of crates/motus-cli/src/main.rs lines
365 to 376, character for character (the first two labels spell week,
not weak, in the source). -/
def PasswordStrength.displayString : PasswordStrength → String
  | PasswordStrength.VeryWeak => "very week"
  | PasswordStrength.Weak => "week"
  | PasswordStrength.Reasonable => "reasonable"
  | PasswordStrength.Strong => "strong"
  | PasswordStrength.VeryStrong => "very strong"

/-- Position of a strength level in the ordinal taxonomy, used to state
order preservation of the classification. -/
def PasswordStrength.rank : PasswordStrength → Nat
  | PasswordStrength.VeryWeak => 0
  | PasswordStrength.Weak => 1
  | PasswordStrength.Reasonable => 2
  | PasswordStrength.Strong => 3
  | PasswordStrength.VeryStrong => 4

/-- The result record of the external entropy estimator (the zxcvbn
crate), modelled at its interface boundary: an ordinal score, the base
ten logarithm of the estimated guess count, and four crack-time
strings. -/
structure Entropy where
  score : Nat
  guesses_log10 : ℚ
  crack_100_per_hour : String
  crack_10_per_second : String
  crack_1e4_per_second : String
  crack_1e10_per_second : String

/-- SecurityAnalysis from crates/motus-cli/src/main.rs lines 138
to 141. -/
structure SecurityAnalysis where
  password : String
  entropy : Entropy

/-- Outcome of a call that can panic: either a normal return or a Rust
panic, which with the setup at the top of main aborts the whole
process. -/
inductive PanicOr (α : Type) where
  | panicked : PanicOr α
  | ret : α → PanicOr α

/-- True exactly on the panic outcome. -/
def PanicOr.isPanic {α : Type} : PanicOr α → Bool
  | PanicOr.panicked => true
  | PanicOr.ret _ => false

/-- SecurityAnalysis::new from crates/motus-cli/src/main.rs lines 206
to 209: run the external estimator on the password and expect success;
estimator failure hits the expect and panics. -/
def SecurityAnalysis.new (zxcvbn : String → Option Entropy) (password : String) :
    PanicOr SecurityAnalysis :=
  match zxcvbn password with
  | none => PanicOr.panicked
  | some entropy => PanicOr.ret ⟨password, entropy⟩

/-- Rounding of a value to zero decimal places as Rust value formatting
with precision zero does it: to the nearest integer, ties to the even
integer. -/
def roundHalfEven (x : ℚ) : Int :=
  if x - Int.floor x < 1/2 then Int.floor x
  else if 1/2 < x - Int.floor x then Int.floor x + 1
  else if Int.floor x % 2 = 0 then Int.floor x else Int.floor x + 1

/-- The strength field written by the Serialize implementation,
crates/motus-cli/src/main.rs lines 191 to 194: the Display string of
the strength level converted from the score (a panic, none, on an out
of range score). -/
def SecurityAnalysis.serialize_strength (a : SecurityAnalysis) : Option String :=
  (PasswordStrength.fromScore a.entropy.score).map PasswordStrength.displayString

/-- The guesses field written by the Serialize implementation,
crates/motus-cli/src/main.rs lines 196 to 199: the format string
10^{:.0} applied to guesses_log10. -/
def SecurityAnalysis.serialize_guesses (a : SecurityAnalysis) : String :=
  "10^" ++ toString (roundHalfEven a.entropy.guesses_log10)

/-- The strength cell of the textual analysis table,
crates/motus-cli/src/main.rs lines 244 to 251: the Display string of
the converted strength level (terminal colouring styles the same
string and is outside the model). -/
def SecurityAnalysis.display_strength_cell (a : SecurityAnalysis) : Option String :=
  (PasswordStrength.fromScore a.entropy.score).map PasswordStrength.displayString

/-- The guesses cell of the textual analysis table,
crates/motus-cli/src/main.rs lines 253 to 260: the format string
10^{:.0} applied to guesses_log10. -/
def SecurityAnalysis.display_guesses_cell (a : SecurityAnalysis) : String :=
  "10^" ++ toString (roundHalfEven a.entropy.guesses_log10)

/-- Proof device for determinism: the character produced by one loop
iteration of random_password, expressed as a pure function of the two
raw draws it consumes; none on any of the panic paths. -/
def charOfDraws (sets : List (List Char)) (d : WeightedIndex) (a b : Nat) :
    Option Char :=
  if d.total_weight = 0 then none
  else
    match sets.get? (partitionPoint (fun w => decide (w ≤ a % d.total_weight))
        d.cumulative_weights) with
    | none => none
    | some selected =>
      if selected.length = 0 then none
      else selected.get? (b % selected.length)

theorem partitionPoint_le_length (p : Nat → Bool) (l : List Nat) :
    partitionPoint p l ≤ l.length := by
  induction l with
  | nil => exact Nat.le_refl 0
  | cons w rest ih =>
    simp only [partitionPoint, List.length_cons]
    split
    · omega
    · omega

theorem passwordChar_eq_spec (sets : List (List Char)) (d : WeightedIndex) (rng : Rng) :
    passwordChar sets d rng = specCharDraw sets d rng := by
  unfold passwordChar specCharDraw
  cases WeightedIndex.sample d rng with
  | none => rfl
  | some jr =>
    obtain ⟨j, rng1⟩ := jr
    simp only [Option.some_bind]
    cases sets.get? j with
    | none => rfl
    | some selected =>
      simp only [Option.some_bind]
      cases genRange rng1 selected.length with
      | none => rfl
      | some ir =>
        obtain ⟨i, rng2⟩ := ir
        simp only [Option.some_bind]
        cases selected.get? i with
        | none => rfl
        | some c => rfl

theorem passwordLoop_eq_spec (sets : List (List Char)) (d : WeightedIndex) :
    ∀ (n : Nat) (rng : Rng), passwordLoop sets d n rng = specPasswordDraw sets d n rng := by
  intro n
  induction n with
  | zero => intro rng; rfl
  | succ n ih =>
    intro rng
    unfold passwordLoop specPasswordDraw
    rw [passwordChar_eq_spec]
    cases specCharDraw sets d rng with
    | none => rfl
    | some cr =>
      obtain ⟨c, rng1⟩ := cr
      simp only [Option.some_bind]
      rw [ih rng1]
      cases specPasswordDraw sets d n rng1 with
      | none => rfl
      | some p =>
        obtain ⟨cs, rng2⟩ := p
        rfl

theorem password_weights_eq_spec (numbers symbols : Bool) :
    password_weights numbers symbols = specWeights numbers symbols := by
  cases numbers <;> cases symbols <;> rfl

theorem available_sets_eq_spec (numbers symbols : Bool) :
    available_sets numbers symbols = specActiveSets numbers symbols := by
  cases numbers <;> cases symbols <;> rfl

theorem random_password_eq_spec (rng : Rng) (n : Nat) (numbers symbols : Bool) :
    random_password rng n numbers symbols = specRandomPassword rng n numbers symbols := by
  unfold random_password specRandomPassword
  rw [← password_weights_eq_spec, ← available_sets_eq_spec]
  cases WeightedIndex.new (password_weights numbers symbols) with
  | none => rfl
  | some d => exact passwordLoop_eq_spec _ d n rng

theorem weightedIndex_new_password (numbers symbols : Bool) :
    ∃ d, WeightedIndex.new (password_weights numbers symbols) = some d ∧
      d.total_weight ≠ 0 ∧
      d.cumulative_weights.length < (available_sets numbers symbols).length ∧
      ∀ s ∈ available_sets numbers symbols, s ≠ [] := by
  cases numbers <;> cases symbols <;>
    exact ⟨_, rfl, by decide, by decide, by decide⟩

theorem passwordChar_total {sets : List (List Char)} {d : WeightedIndex}
    (hw : d.total_weight ≠ 0)
    (hlen : d.cumulative_weights.length < sets.length)
    (hne : ∀ s ∈ sets, s ≠ []) (rng : Rng) :
    ∃ c rng2, passwordChar sets d rng = some (c, rng2) ∧
      rng2.seq = rng.seq ∧ rng2.pos = rng.pos + 2 := by
  have hx : genRange rng d.total_weight =
      some (rng.seq rng.pos % d.total_weight, ⟨rng.seq, rng.pos + 1⟩) := by
    unfold genRange
    rw [if_neg hw]
  have hjlt : partitionPoint (fun w => decide (w ≤ rng.seq rng.pos % d.total_weight))
      d.cumulative_weights < sets.length :=
    lt_of_le_of_lt (partitionPoint_le_length _ _) hlen
  have hget : sets.get? (partitionPoint (fun w => decide (w ≤ rng.seq rng.pos % d.total_weight))
      d.cumulative_weights) = some (sets.get ⟨_, hjlt⟩) := List.get?_eq_get hjlt
  have hmem : sets.get ⟨_, hjlt⟩ ∈ sets := sets.get_mem _ _
  have hsne : (sets.get ⟨_, hjlt⟩).length ≠ 0 := by
    intro h0
    exact hne _ hmem (List.length_eq_zero.mp h0)
  have hi : genRange (⟨rng.seq, rng.pos + 1⟩ : Rng) (sets.get ⟨_, hjlt⟩).length =
      some (rng.seq (rng.pos + 1) % (sets.get ⟨_, hjlt⟩).length, ⟨rng.seq, rng.pos + 2⟩) := by
    unfold genRange
    rw [if_neg hsne]
  have hilt : rng.seq (rng.pos + 1) % (sets.get ⟨_, hjlt⟩).length <
      (sets.get ⟨_, hjlt⟩).length := Nat.mod_lt _ (Nat.pos_of_ne_zero hsne)
  have hcget : (sets.get ⟨_, hjlt⟩).get? (rng.seq (rng.pos + 1) % (sets.get ⟨_, hjlt⟩).length) =
      some ((sets.get ⟨_, hjlt⟩).get ⟨_, hilt⟩) := List.get?_eq_get hilt
  unfold passwordChar WeightedIndex.sample
  rw [hx]
  simp only [hget, hi, hcget]
  exact ⟨_, _, rfl, rfl, rfl⟩

theorem passwordLoop_total {sets : List (List Char)} {d : WeightedIndex}
    (hw : d.total_weight ≠ 0)
    (hlen : d.cumulative_weights.length < sets.length)
    (hne : ∀ s ∈ sets, s ≠ []) :
    ∀ (n : Nat) (rng : Rng), ∃ cs rng2, passwordLoop sets d n rng = some (cs, rng2) ∧
      cs.length = n ∧ rng2.seq = rng.seq ∧ rng2.pos = rng.pos + 2 * n := by
  intro n
  induction n with
  | zero => intro rng; exact ⟨[], rng, rfl, rfl, rfl, rfl⟩
  | succ n ih =>
    intro rng
    obtain ⟨c, rng1, hc, hseq1, hpos1⟩ := passwordChar_total hw hlen hne rng
    obtain ⟨cs, rng2, hcs, hlencs, hseq2, hpos2⟩ := ih rng1
    refine ⟨c :: cs, rng2, ?_, by simp [hlencs], ?_, ?_⟩
    · simp only [passwordLoop, hc, hcs]
    · rw [hseq2, hseq1]
    · rw [hpos2, hpos1]
      omega

theorem random_password_total (rng : Rng) (n : Nat) (numbers symbols : Bool) :
    ∃ cs rng2, random_password rng n numbers symbols = some (cs, rng2) ∧
      cs.length = n ∧ rng2.seq = rng.seq ∧ rng2.pos = rng.pos + 2 * n := by
  obtain ⟨d, hd, hw, hlen, hne⟩ := weightedIndex_new_password numbers symbols
  obtain ⟨cs, rng2, hcs, h1, h2, h3⟩ := passwordLoop_total hw hlen hne n rng
  refine ⟨cs, rng2, ?_, h1, h2, h3⟩
  unfold random_password
  rw [hd]
  exact hcs

theorem passwordChar_mem {sets : List (List Char)} {d : WeightedIndex} {rng : Rng}
    {c : Char} {rng2 : Rng} (h : passwordChar sets d rng = some (c, rng2)) :
    ∃ s, s ∈ sets ∧ c ∈ s := by
  unfold passwordChar at h
  cases hs : WeightedIndex.sample d rng with
  | none => rw [hs] at h; cases h
  | some jr =>
    obtain ⟨j, rng1⟩ := jr
    rw [hs] at h
    cases hg : sets.get? j with
    | none => simp only [hg] at h; exact Option.noConfusion h
    | some selected =>
      simp only [hg] at h
      cases hr : genRange rng1 selected.length with
      | none => rw [hr] at h; cases h
      | some ir =>
        obtain ⟨i, rng3⟩ := ir
        rw [hr] at h
        cases hcg : selected.get? i with
        | none => simp only [hcg] at h; exact Option.noConfusion h
        | some c2 =>
          simp only [hcg, Option.some.injEq, Prod.mk.injEq] at h
          obtain ⟨rfl, rfl⟩ := h
          exact ⟨selected, List.get?_mem hg, List.get?_mem hcg⟩

theorem passwordLoop_mem {sets : List (List Char)} {d : WeightedIndex} :
    ∀ {n : Nat} {rng : Rng} {cs : List Char} {rng2 : Rng},
      passwordLoop sets d n rng = some (cs, rng2) →
      ∀ c ∈ cs, ∃ s, s ∈ sets ∧ c ∈ s := by
  intro n
  induction n with
  | zero =>
    intro rng cs rng2 h c hc
    simp only [passwordLoop, Option.some.injEq, Prod.mk.injEq] at h
    obtain ⟨rfl, rfl⟩ := h
    cases hc
  | succ n ih =>
    intro rng cs rng2 h c hc
    simp only [passwordLoop] at h
    cases hpc : passwordChar sets d rng with
    | none => rw [hpc] at h; cases h
    | some cr =>
      obtain ⟨c1, rng1⟩ := cr
      simp only [hpc] at h
      cases hpl : passwordLoop sets d n rng1 with
      | none => simp only [hpl] at h; exact Option.noConfusion h
      | some p =>
        obtain ⟨cs1, rngf⟩ := p
        simp only [hpl, Option.some.injEq, Prod.mk.injEq] at h
        obtain ⟨rfl, rfl⟩ := h
        cases hc with
        | head => exact passwordChar_mem hpc
        | tail _ hc2 => exact ih hpl c hc2

theorem random_password_mem {rng : Rng} {n : Nat} {numbers symbols : Bool}
    {cs : List Char} {rng2 : Rng}
    (h : random_password rng n numbers symbols = some (cs, rng2)) :
    ∀ c ∈ cs, ∃ s, s ∈ available_sets numbers symbols ∧ c ∈ s := by
  unfold random_password at h
  cases hd : WeightedIndex.new (password_weights numbers symbols) with
  | none => rw [hd] at h; cases h
  | some d =>
    rw [hd] at h
    exact passwordLoop_mem h

theorem pin_password_total : ∀ (n : Nat) (rng : Rng),
    ∃ cs rng2, pin_password rng n = some (cs, rng2) ∧
      cs.length = n ∧ rng2.seq = rng.seq ∧ rng2.pos = rng.pos + n ∧
      ∀ c ∈ cs, c ∈ NUMBER_CHARS := by
  intro n
  induction n with
  | zero =>
    intro rng
    exact ⟨[], rng, rfl, rfl, rfl, rfl, by intro c hc; cases hc⟩
  | succ n ih =>
    intro rng
    have hg : genRange rng NUMBER_CHARS.length =
        some (rng.seq rng.pos % NUMBER_CHARS.length, ⟨rng.seq, rng.pos + 1⟩) := by
      unfold genRange
      rw [if_neg (by decide)]
    have hilt : rng.seq rng.pos % NUMBER_CHARS.length < NUMBER_CHARS.length :=
      Nat.mod_lt _ (by decide)
    have hget : NUMBER_CHARS.get? (rng.seq rng.pos % NUMBER_CHARS.length) =
        some (NUMBER_CHARS.get ⟨_, hilt⟩) := List.get?_eq_get hilt
    obtain ⟨cs, rng2, hcs, hlencs, hseq2, hpos2, hmem⟩ := ih ⟨rng.seq, rng.pos + 1⟩
    refine ⟨NUMBER_CHARS.get ⟨_, hilt⟩ :: cs, rng2, ?_, by simp [hlencs], hseq2, by
      simp only [hpos2]; omega, ?_⟩
    · simp only [pin_password, hg, hget, hcs]
    · intro c hc
      cases hc with
      | head => exact List.get_mem _ _ _
      | tail _ hc2 => exact hmem c hc2

theorem passwordChar_eq_ofDraws (sets : List (List Char)) (d : WeightedIndex)
    (r : Rng) :
    passwordChar sets d r =
      Option.map (fun c => (c, (⟨r.seq, r.pos + 2⟩ : Rng)))
        (charOfDraws sets d (r.seq r.pos) (r.seq (r.pos + 1))) := by
  unfold passwordChar WeightedIndex.sample charOfDraws genRange
  by_cases hw : d.total_weight = 0
  · simp [hw]
  · simp only [if_neg hw]
    cases hg : sets.get? (partitionPoint
        (fun w => decide (w ≤ r.seq r.pos % d.total_weight)) d.cumulative_weights) with
    | none => simp [hg]
    | some selected =>
      simp only [hg]
      by_cases hl : selected.length = 0
      · simp [hl]
      · simp only [if_neg hl]
        cases hc : selected.get? (r.seq (r.pos + 1) % selected.length) with
        | none => simp [hc]
        | some c => simp [hc]

theorem passwordLoop_det (sets : List (List Char)) (d : WeightedIndex) :
    ∀ (n : Nat) (r1 r2 : Rng), r1.pos = r2.pos →
      (∀ k, k < 2 * n → r1.seq (r1.pos + k) = r2.seq (r2.pos + k)) →
      Option.map (fun p => (p.1, p.2.pos)) (passwordLoop sets d n r1) =
      Option.map (fun p => (p.1, p.2.pos)) (passwordLoop sets d n r2) := by
  intro n
  induction n with
  | zero =>
    intro r1 r2 hpos _
    simp [passwordLoop, hpos]
  | succ n ih =>
    intro r1 r2 hpos hag
    have h0 : r1.seq r1.pos = r2.seq r2.pos := by
      simpa using hag 0 (by omega)
    have h1 : r1.seq (r1.pos + 1) = r2.seq (r2.pos + 1) := hag 1 (by omega)
    have hstep : charOfDraws sets d (r1.seq r1.pos) (r1.seq (r1.pos + 1)) =
        charOfDraws sets d (r2.seq r2.pos) (r2.seq (r2.pos + 1)) := by
      rw [h0, h1]
    simp only [passwordLoop, passwordChar_eq_ofDraws]
    rw [hstep]
    cases hcd : charOfDraws sets d (r2.seq r2.pos) (r2.seq (r2.pos + 1)) with
    | none => simp
    | some c =>
      simp only [Option.map_some']
      have ihres := ih ⟨r1.seq, r1.pos + 2⟩ ⟨r2.seq, r2.pos + 2⟩
        (show r1.pos + 2 = r2.pos + 2 by rw [hpos])
        (by
          intro k hk
          show r1.seq (r1.pos + 2 + k) = r2.seq (r2.pos + 2 + k)
          have e1 : r1.pos + 2 + k = r1.pos + (2 + k) := by omega
          have e2 : r2.pos + 2 + k = r2.pos + (2 + k) := by omega
          rw [e1, e2]
          exact hag (2 + k) (by omega))
      cases hl1 : passwordLoop sets d n ⟨r1.seq, r1.pos + 2⟩ with
      | none =>
        cases hl2 : passwordLoop sets d n ⟨r2.seq, r2.pos + 2⟩ with
        | none => simp
        | some p2 =>
          rw [hl1, hl2] at ihres
          exact absurd ihres (by simp)
      | some p1 =>
        cases hl2 : passwordLoop sets d n ⟨r2.seq, r2.pos + 2⟩ with
        | none =>
          rw [hl1, hl2] at ihres
          exact absurd ihres (by simp)
        | some p2 =>
          rw [hl1, hl2] at ihres
          obtain ⟨cs1, rf1⟩ := p1
          obtain ⟨cs2, rf2⟩ := p2
          simp only [Option.map_some', Option.some.injEq, Prod.mk.injEq] at ihres
          obtain ⟨hcs, hposf⟩ := ihres
          simp [hcs, hposf]

theorem random_password_det (numbers symbols : Bool) :
    ∀ (n : Nat) (r1 r2 : Rng), r1.pos = r2.pos →
      (∀ k, k < 2 * n → r1.seq (r1.pos + k) = r2.seq (r2.pos + k)) →
      Option.map (fun p => (p.1, p.2.pos)) (random_password r1 n numbers symbols) =
      Option.map (fun p => (p.1, p.2.pos)) (random_password r2 n numbers symbols) := by
  intro n r1 r2 hpos hag
  unfold random_password
  cases WeightedIndex.new (password_weights numbers symbols) with
  | none => rfl
  | some d => exact passwordLoop_det _ d n r1 r2 hpos hag

theorem pin_password_det :
    ∀ (n : Nat) (r1 r2 : Rng), r1.pos = r2.pos →
      (∀ k, k < n → r1.seq (r1.pos + k) = r2.seq (r2.pos + k)) →
      Option.map (fun p => (p.1, p.2.pos)) (pin_password r1 n) =
      Option.map (fun p => (p.1, p.2.pos)) (pin_password r2 n) := by
  intro n
  induction n with
  | zero =>
    intro r1 r2 hpos _
    simp [pin_password, hpos]
  | succ n ih =>
    intro r1 r2 hpos hag
    have hg1 : genRange r1 NUMBER_CHARS.length =
        some (r1.seq r1.pos % NUMBER_CHARS.length, ⟨r1.seq, r1.pos + 1⟩) := by
      unfold genRange
      rw [if_neg (by decide)]
    have hg2 : genRange r2 NUMBER_CHARS.length =
        some (r2.seq r2.pos % NUMBER_CHARS.length, ⟨r2.seq, r2.pos + 1⟩) := by
      unfold genRange
      rw [if_neg (by decide)]
    have h0 : r1.seq r1.pos % NUMBER_CHARS.length =
        r2.seq r2.pos % NUMBER_CHARS.length := by
      rw [show r1.seq r1.pos = r2.seq r2.pos from by simpa using hag 0 (by omega)]
    simp only [pin_password, hg1, hg2]
    rw [h0]
    cases hc : NUMBER_CHARS.get? (r2.seq r2.pos % NUMBER_CHARS.length) with
    | none => simp
    | some c =>
      have ihres := ih ⟨r1.seq, r1.pos + 1⟩ ⟨r2.seq, r2.pos + 1⟩
        (show r1.pos + 1 = r2.pos + 1 by rw [hpos])
        (by
          intro k hk
          show r1.seq (r1.pos + 1 + k) = r2.seq (r2.pos + 1 + k)
          have e1 : r1.pos + 1 + k = r1.pos + (1 + k) := by omega
          have e2 : r2.pos + 1 + k = r2.pos + (1 + k) := by omega
          rw [e1, e2]
          exact hag (1 + k) (by omega))
      cases hl1 : pin_password ⟨r1.seq, r1.pos + 1⟩ n with
      | none =>
        cases hl2 : pin_password ⟨r2.seq, r2.pos + 1⟩ n with
        | none => simp
        | some p2 =>
          rw [hl1, hl2] at ihres
          exact absurd ihres (by simp)
      | some p1 =>
        cases hl2 : pin_password ⟨r2.seq, r2.pos + 1⟩ n with
        | none =>
          rw [hl1, hl2] at ihres
          exact absurd ihres (by simp)
        | some p2 =>
          rw [hl1, hl2] at ihres
          obtain ⟨cs1, rf1⟩ := p1
          obtain ⟨cs2, rf2⟩ := p2
          simp only [Option.map_some', Option.some.injEq, Prod.mk.injEq] at ihres
          obtain ⟨hcs, hposf⟩ := ihres
          simp [hcs, hposf]

theorem fromScore_eq_none_of_gt (s : Nat) (hs : 4 < s) :
    PasswordStrength.fromScore s = none := by
  obtain ⟨n, rfl⟩ : ∃ n, s = n + 5 := ⟨s - 5, by omega⟩
  rfl

theorem roundHalfEven_bounds (x : ℚ) :
    ((roundHalfEven x : ℚ) - 1/2 ≤ x) ∧ (x ≤ (roundHalfEven x : ℚ) + 1/2) := by
  have h1 : ((Int.floor x : Int) : ℚ) ≤ x := Int.floor_le x
  have h2 : x < ((Int.floor x : Int) : ℚ) + 1 := Int.lt_floor_add_one x
  unfold roundHalfEven
  split_ifs with ha hb hc <;> constructor <;> push_cast <;> linarith

/-- Claim C1: the active class list is Letters always first, then
Digits if numbers, then Symbols if symbols, in that order; the weight
vector is exactly [10], [8, 2], [8, 2], [7, 2, 1] by flag combination;
the weighted categorical distribution built from each vector realises
exactly those weights over the active class indices (each class index
is selected by exactly its weight among the ten possible raw draw
values); and each character is drawn by first sampling a class index
from the weighted distribution and then sampling a character uniformly
from that class, stated as equality of random_password with the
generator transcribed from the spec wording. -/
theorem c1_classes_weights_and_drawing :
    (available_sets false false = [LETTER_CHARS] ∧
     available_sets true false = [LETTER_CHARS, NUMBER_CHARS] ∧
     available_sets false true = [LETTER_CHARS, SYMBOL_CHARS] ∧
     available_sets true true = [LETTER_CHARS, NUMBER_CHARS, SYMBOL_CHARS]) ∧
    (password_weights false false = [10] ∧
     password_weights true false = [8, 2] ∧
     password_weights false true = [8, 2] ∧
     password_weights true true = [7, 2, 1]) ∧
    (WeightedIndex.new [10] = some ⟨[], 10⟩ ∧
     classHitCount ⟨[], 10⟩ 0 = 10) ∧
    (WeightedIndex.new [8, 2] = some ⟨[8], 10⟩ ∧
     classHitCount ⟨[8], 10⟩ 0 = 8 ∧ classHitCount ⟨[8], 10⟩ 1 = 2) ∧
    (WeightedIndex.new [7, 2, 1] = some ⟨[7, 9], 10⟩ ∧
     classHitCount ⟨[7, 9], 10⟩ 0 = 7 ∧ classHitCount ⟨[7, 9], 10⟩ 1 = 2 ∧
     classHitCount ⟨[7, 9], 10⟩ 2 = 1) ∧
    (∀ (rng : Rng) (n : Nat) (numbers symbols : Bool),
      random_password rng n numbers symbols =
        specRandomPassword rng n numbers symbols) :=
  ⟨⟨by decide, by decide, by decide, by decide⟩,
   ⟨rfl, rfl, rfl, rfl⟩,
   ⟨rfl, by decide⟩,
   ⟨rfl, by decide, by decide⟩,
   ⟨rfl, by decide, by decide, by decide⟩,
   random_password_eq_spec⟩

/-- Claim C2: every character of a generated password belongs to the
union of the active classes of its flag combination; with numbers and
symbols both false, every character belongs to the Letters class; and
the classes are pairwise disjoint, so no output character belongs to a
disabled class. -/
theorem c2_chars_from_active_classes :
    (∀ (rng : Rng) (n : Nat) (numbers symbols : Bool) (cs : List Char) (rng2 : Rng),
      random_password rng n numbers symbols = some (cs, rng2) →
      ∀ c ∈ cs, c ∈ (available_sets numbers symbols).flatten) ∧
    (∀ (rng : Rng) (n : Nat) (cs : List Char) (rng2 : Rng),
      random_password rng n false false = some (cs, rng2) →
      ∀ c ∈ cs, c ∈ LETTER_CHARS) ∧
    (∀ c ∈ LETTER_CHARS, c ∉ NUMBER_CHARS ∧ c ∉ SYMBOL_CHARS) ∧
    (∀ c ∈ NUMBER_CHARS, c ∉ SYMBOL_CHARS) := by
  refine ⟨?_, ?_, by decide, by decide⟩
  · intro rng n numbers symbols cs rng2 h c hc
    obtain ⟨s, hs, hcs⟩ := random_password_mem h c hc
    exact List.mem_flatten.mpr ⟨s, hs, hcs⟩
  · intro rng n cs rng2 h c hc
    obtain ⟨s, hs, hcs⟩ := random_password_mem h c hc
    have heq : s = LETTER_CHARS := by simpa [available_sets] using hs
    exact heq ▸ hcs

theorem c2_chars_from_active_classes_witness :
    random_password ⟨fun _ => 0, 0⟩ 1 false false = some (['a'], ⟨fun _ => 0, 2⟩) ∧
    'a' ∈ (['a'] : List Char) ∧ 'a' ∈ LETTER_CHARS :=
  ⟨rfl, by decide,
   c2_chars_from_active_classes.2.1 ⟨fun _ => 0, 0⟩ 1 ['a'] ⟨fun _ => 0, 2⟩ rfl 'a'
     (by decide)⟩

/-- Claim C3: for every random source and every requested length,
including zero, random_password and pin_password return a string of
exactly that many characters. -/
theorem c3_exact_length :
    (∀ (rng : Rng) (n : Nat) (numbers symbols : Bool),
      ∃ cs rng2, random_password rng n numbers symbols = some (cs, rng2) ∧
        cs.length = n) ∧
    (∀ (rng : Rng) (n : Nat),
      ∃ cs rng2, pin_password rng n = some (cs, rng2) ∧ cs.length = n) := by
  constructor
  · intro rng n numbers symbols
    obtain ⟨cs, rng2, h1, h2, _, _⟩ := random_password_total rng n numbers symbols
    exact ⟨cs, rng2, h1, h2⟩
  · intro rng n
    obtain ⟨cs, rng2, h1, h2, _, _, _⟩ := pin_password_total n rng
    exact ⟨cs, rng2, h1, h2⟩

/-- Claim C4: the strength classification maps scores 0 to 4 to the
five levels in order, is order preserving on the scores it accepts,
and fails (panics, modelled as none) on every score above 4 instead of
clamping or defaulting. -/
theorem c4_classification_total_ordered :
    (PasswordStrength.fromScore 0 = some PasswordStrength.VeryWeak) ∧
    (PasswordStrength.fromScore 1 = some PasswordStrength.Weak) ∧
    (PasswordStrength.fromScore 2 = some PasswordStrength.Reasonable) ∧
    (PasswordStrength.fromScore 3 = some PasswordStrength.Strong) ∧
    (PasswordStrength.fromScore 4 = some PasswordStrength.VeryStrong) ∧
    (∀ s t ps pt, PasswordStrength.fromScore s = some ps →
      PasswordStrength.fromScore t = some pt →
      (s < t ↔ ps.rank < pt.rank)) ∧
    (∀ s, 4 < s → PasswordStrength.fromScore s = none) := by
  refine ⟨rfl, rfl, rfl, rfl, rfl, ?_, fromScore_eq_none_of_gt⟩
  intro s t ps pt hs ht
  have hs4 : s ≤ 4 := by
    by_contra hcon
    rw [fromScore_eq_none_of_gt s (by omega)] at hs
    cases hs
  have ht4 : t ≤ 4 := by
    by_contra hcon
    rw [fromScore_eq_none_of_gt t (by omega)] at ht
    cases ht
  interval_cases s <;> interval_cases t <;>
    (simp only [PasswordStrength.fromScore, Option.some.injEq] at hs ht;
     subst hs; subst ht; decide)

theorem c4_classification_total_ordered_witness :
    (PasswordStrength.fromScore 1 = some PasswordStrength.Weak ∧
     PasswordStrength.fromScore 3 = some PasswordStrength.Strong ∧
     (1 < 3 ↔ PasswordStrength.Weak.rank < PasswordStrength.Strong.rank)) ∧
    (4 < 7 ∧ PasswordStrength.fromScore 7 = none) :=
  ⟨⟨rfl, rfl,
    c4_classification_total_ordered.2.2.2.2.2.1 1 3 PasswordStrength.Weak
      PasswordStrength.Strong rfl rfl⟩,
   ⟨by decide, c4_classification_total_ordered.2.2.2.2.2.2 7 (by decide)⟩⟩

/-- Claim C5: generation is deterministic in the injected random
source: two calls with sources in identical states (same position and
the same raw draw sequence over the draws the call consumes, two per
password character and one per PIN digit) and identical parameters
produce identical output strings. -/
theorem c5_deterministic_generation :
    (∀ (numbers symbols : Bool) (n : Nat) (r1 r2 : Rng), r1.pos = r2.pos →
      (∀ k, k < 2 * n → r1.seq (r1.pos + k) = r2.seq (r2.pos + k)) →
      (random_password r1 n numbers symbols).map (fun p => p.1) =
      (random_password r2 n numbers symbols).map (fun p => p.1)) ∧
    (∀ (n : Nat) (r1 r2 : Rng), r1.pos = r2.pos →
      (∀ k, k < n → r1.seq (r1.pos + k) = r2.seq (r2.pos + k)) →
      (pin_password r1 n).map (fun p => p.1) =
      (pin_password r2 n).map (fun p => p.1)) := by
  constructor
  · intro numbers symbols n r1 r2 hpos hag
    have h := random_password_det numbers symbols n r1 r2 hpos hag
    have h2 := congrArg (Option.map (Prod.fst : List Char × Nat → List Char)) h
    rw [Option.map_map, Option.map_map] at h2
    exact h2
  · intro n r1 r2 hpos hag
    have h := pin_password_det n r1 r2 hpos hag
    have h2 := congrArg (Option.map (Prod.fst : List Char × Nat → List Char)) h
    rw [Option.map_map, Option.map_map] at h2
    exact h2

theorem c5_deterministic_generation_witness :
    ((⟨fun _ => 0, 0⟩ : Rng).pos = (⟨fun k => if k < 2 then 0 else 7, 0⟩ : Rng).pos) ∧
    (random_password ⟨fun _ => 0, 0⟩ 1 false false).map (fun p => p.1) =
      (random_password ⟨fun k => if k < 2 then 0 else 7, 0⟩ 1 false false).map
        (fun p => p.1) :=
  ⟨rfl,
   c5_deterministic_generation.1 false false 1 ⟨fun _ => 0, 0⟩
     ⟨fun k => if k < 2 then 0 else 7, 0⟩ rfl
     (by
       intro k hk
       have hk2 : k < 2 := by omega
       show (0 : Nat) = if 0 + k < 2 then 0 else 7
       rw [if_pos (by omega)])⟩

/-- Claim C6, counterexample to the claim as stated: on an estimator
failure, SecurityAnalysis.new does not propagate a recoverable error
value to its caller; it panics, which under the panic hook installed
in main aborts the whole process, escalating past the analysis step. -/
theorem c6_estimator_failure_counterexample :
    SecurityAnalysis.new (fun _ => none) "" = PanicOr.panicked ∧
    (SecurityAnalysis.new (fun _ => none) "").isPanic = true :=
  ⟨rfl, rfl⟩

/-- Claim C6 as amended: when the external estimator fails on an
input, SecurityAnalysis.new panics (process fatal) instead of
returning a recoverable error; when the estimator succeeds, the
returned analysis carries the already-produced password unchanged, so
analysis never alters the generated secret itself. -/
theorem c6_estimator_failure_panics :
    (∀ (zxcvbn : String → Option Entropy) (password : String),
      zxcvbn password = none →
      SecurityAnalysis.new zxcvbn password = PanicOr.panicked) ∧
    (∀ (zxcvbn : String → Option Entropy) (password : String) (e : Entropy),
      zxcvbn password = some e →
      SecurityAnalysis.new zxcvbn password = PanicOr.ret ⟨password, e⟩) := by
  constructor
  · intro zxcvbn password h
    unfold SecurityAnalysis.new
    rw [h]
  · intro zxcvbn password e h
    unfold SecurityAnalysis.new
    rw [h]

theorem c6_estimator_failure_panics_witness :
    ((fun _ => (none : Option Entropy)) "" = none) ∧
    SecurityAnalysis.new (fun _ => none) "" = PanicOr.panicked :=
  ⟨rfl, c6_estimator_failure_panics.1 (fun _ => none) "" rfl⟩

/-- Claim C7: every character of a generated PIN is one of the ten
digits 0 through 9; each position is drawn from the Digits class by
the uniform range primitive, with each digit selected by exactly one
of the ten possible raw draw values. -/
theorem c7_pin_digits :
    (∀ c ∈ NUMBER_CHARS, '0' ≤ c ∧ c ≤ '9') ∧
    (∀ c ∈ NUMBER_CHARS,
      ((Finset.range NUMBER_CHARS.length).filter
        (fun i => NUMBER_CHARS.get? i = some c)).card = 1) ∧
    (∀ (rng : Rng) (n : Nat), ∃ cs rng2,
      pin_password rng n = some (cs, rng2) ∧ cs.length = n ∧
      ∀ c ∈ cs, c ∈ NUMBER_CHARS) := by
  refine ⟨by decide, by decide, ?_⟩
  intro rng n
  obtain ⟨cs, rng2, h1, h2, _, _, h5⟩ := pin_password_total n rng
  exact ⟨cs, rng2, h1, h2, h5⟩

theorem c7_pin_digits_witness :
    ('0' ∈ NUMBER_CHARS) ∧ ('0' ≤ '0' ∧ '0' ≤ '9') :=
  ⟨by decide, c7_pin_digits.1 '0' (by decide)⟩

/-- Claim C8: in both the JSON serialization and the textual analysis
table the guesses figure is the string 10^ followed by the base ten
logarithm of the guess count rounded to zero decimal places: the two
report sites always agree, the printed exponent is the logarithm
rounded to within one half, and a logarithm of 9.6 renders as
10^10. -/
theorem c8_guesses_figure :
    (∀ a : SecurityAnalysis, a.serialize_guesses = a.display_guesses_cell) ∧
    (∀ a : SecurityAnalysis, ∃ k : Int,
      a.serialize_guesses = "10^" ++ toString k ∧
      (k : ℚ) - 1/2 ≤ a.entropy.guesses_log10 ∧
      a.entropy.guesses_log10 ≤ (k : ℚ) + 1/2) ∧
    ((SecurityAnalysis.mk "p" ⟨2, 48/5, "a", "b", "c", "d"⟩).serialize_guesses =
      "10^10" ∧
     (SecurityAnalysis.mk "p" ⟨2, 48/5, "a", "b", "c", "d"⟩).display_guesses_cell =
      "10^10") := by
  have hr : roundHalfEven (48/5 : ℚ) = 10 := by
    have hf : Int.floor ((48 : ℚ)/5) = 9 := by norm_num [Int.floor_eq_iff]
    unfold roundHalfEven
    rw [hf]
    norm_num
  refine ⟨fun a => rfl, ?_, ?_, ?_⟩
  · intro a
    refine ⟨roundHalfEven a.entropy.guesses_log10, rfl, ?_, ?_⟩
    · exact (roundHalfEven_bounds a.entropy.guesses_log10).1
    · exact (roundHalfEven_bounds a.entropy.guesses_log10).2
  · show "10^" ++ toString (roundHalfEven (48/5 : ℚ)) = "10^10"
    rw [hr]
    decide
  · show "10^" ++ toString (roundHalfEven (48/5 : ℚ)) = "10^10"
    rw [hr]
    decide

/-- Claim C9: generation never reaches a failure branch: each of the
fixed weight vectors builds a valid weighted distribution, the sampled
class index always lands inside the active class list, the character
index always lands inside the class, and both generators always
return successfully. -/
theorem c9_no_failure_branch :
    (∀ numbers symbols : Bool,
      (WeightedIndex.new (password_weights numbers symbols)).isSome = true) ∧
    (∀ (rng : Rng) (n : Nat) (numbers symbols : Bool),
      (random_password rng n numbers symbols).isSome = true) ∧
    (∀ (rng : Rng) (n : Nat), (pin_password rng n).isSome = true) := by
  refine ⟨?_, ?_, ?_⟩
  · intro numbers symbols
    obtain ⟨d, hd, _, _, _⟩ := weightedIndex_new_password numbers symbols
    rw [hd]
    rfl
  · intro rng n numbers symbols
    obtain ⟨cs, rng2, h1, _, _, _⟩ := random_password_total rng n numbers symbols
    rw [h1]
    rfl
  · intro rng n
    obtain ⟨cs, rng2, h1, _, _, _, _⟩ := pin_password_total n rng
    rw [h1]
    rfl

/-- Claim C10: the strength labels emitted in the serialized strength
field and in the table strength cell are exactly the strings very
week, week, reasonable, strong, very strong for scores 0 to 4 (the
first two misspell weak as week), and not the level names of the
taxonomy. -/
theorem c10_strength_labels :
    (PasswordStrength.displayString PasswordStrength.VeryWeak = "very week" ∧
     PasswordStrength.displayString PasswordStrength.Weak = "week" ∧
     PasswordStrength.displayString PasswordStrength.Reasonable = "reasonable" ∧
     PasswordStrength.displayString PasswordStrength.Strong = "strong" ∧
     PasswordStrength.displayString PasswordStrength.VeryStrong = "very strong") ∧
    (∀ ps : PasswordStrength,
      PasswordStrength.displayString ps ≠ "very weak" ∧
      PasswordStrength.displayString ps ≠ "weak" ∧
      PasswordStrength.displayString ps ≠ "VeryWeak" ∧
      PasswordStrength.displayString ps ≠ "Weak") ∧
    (∀ a : SecurityAnalysis, a.display_strength_cell = a.serialize_strength) ∧
    (∀ a : SecurityAnalysis, a.entropy.score = 0 →
      a.serialize_strength = some "very week") ∧
    (∀ a : SecurityAnalysis, a.entropy.score = 1 →
      a.serialize_strength = some "week") ∧
    (∀ a : SecurityAnalysis, a.entropy.score = 2 →
      a.serialize_strength = some "reasonable") ∧
    (∀ a : SecurityAnalysis, a.entropy.score = 3 →
      a.serialize_strength = some "strong") ∧
    (∀ a : SecurityAnalysis, a.entropy.score = 4 →
      a.serialize_strength = some "very strong") := by
  refine ⟨⟨rfl, rfl, rfl, rfl, rfl⟩, ?_, fun a => rfl, ?_, ?_, ?_, ?_, ?_⟩
  · intro ps
    cases ps <;> exact ⟨by decide, by decide, by decide, by decide⟩
  all_goals
    intro a h
    unfold SecurityAnalysis.serialize_strength
    rw [h]
    rfl

theorem c10_strength_labels_witness :
    ((SecurityAnalysis.mk "p" ⟨0, 0, "a", "b", "c", "d"⟩).entropy.score = 0) ∧
    (SecurityAnalysis.mk "p" ⟨0, 0, "a", "b", "c", "d"⟩).serialize_strength =
      some "very week" :=
  ⟨rfl,
   c10_strength_labels.2.2.2.1 (SecurityAnalysis.mk "p" ⟨0, 0, "a", "b", "c", "d"⟩) rfl⟩
